import Mathlib

/-!
# Verification of `currycompose` (`src/src/lib.rs`)

The crate provides a currying function-composition combinator.  Its data
model is:

* a Rust argument list (a tuple type `XG`, `XF`, ...) — embedded here as a
  heterogeneous list `HList` indexed by the `List Type` of its element types;
* the tuple algebra collaborator (`tupleops::concat_tuples`,
  `tuple_split::split_tuple`) — embedded as `concatTuples` and `splitTuple`;
  the split point of `split_tuple` is statically fixed by the type-level
  lists, exactly as `SplitInto<Tail<XG>, XF>` fixes it in the source;
* the struct `Composition<G, F, XG, XF> { g, f, phantom }` — embedded as
  `Composition` with the two data-carrying fields `g` and `f` (the
  `PhantomData<(XG, XF)>` marker carries no data; the type-list indices are
  carried by the types of `g` and `f` here);
* the three calling disciplines `FnOnce::call_once`, `FnMut::call_mut`,
  `Fn::call` — embedded as `Composition.call_once` (callables are plain
  functions on argument lists, consumed by application),
  `Composition.call_mut` (callables are state-transformers
  `σ → args → result × σ`, modelling a closure's mutable captures), and
  `Composition.call` (callables read their captures `σ` but cannot write
  them, modelling access through a shared reference).  World-passing
  variants additionally thread an explicit external world `ω` through `f`
  and `g` in the evaluation order of the Rust source
  (`self.g.call…(concat_tuples((self.f.call…(right),), left))` evaluates
  the argument, i.e. `f`, before invoking `g`), making the side-effect
  order of the three impls observable.

Throughout, `H` is the head type of `g`'s argument list, `T` its tail,
`X` is `f`'s argument list, `C` is `g`'s output type.
-/

universe u v

namespace CurryCompose

/-- A heterogeneous list: the value-level form of a Rust tuple whose element
types are `αs`.  `HList [A, B, C]` corresponds to the Rust tuple `(A, B, C)`. -/
inductive HList : List (Type u) → Type (u + 1)
  | nil : HList []
  | cons {α : Type u} {αs : List (Type u)} (head : α) (tail : HList αs) : HList (α :: αs)

/-- Embedding of `tupleops::concat_tuples`: concatenate two tuples,
preserving order. -/
def concatTuples : {as bs : List (Type u)} → HList as → HList bs → HList (as ++ bs)
  | [], _, HList.nil, ys => ys
  | _ :: _, _, HList.cons x xs, ys => HList.cons x (concatTuples xs ys)

/-- Embedding of `tuple_split::TupleSplit::split_tuple` at the instantiation
`SplitInto<as, bs>` used by the source: split a value of the concatenated
tuple type `as ++ bs` at the statically fixed index `length as` into its two
constituent tuples. -/
def splitTuple : (as : List (Type u)) → {bs : List (Type u)} → HList (as ++ bs) → HList as × HList bs
  | [], _, xs => (HList.nil, xs)
  | _ :: as, _, HList.cons x xs =>
    (HList.cons x (splitTuple as xs).1, (splitTuple as xs).2)

/-- Embedding of `struct Composition<G, F, XG, XF> { g: G, f: F, phantom: PhantomData<(XG, XF)> }`
(src/src/lib.rs:220-226).  The two data-carrying fields are kept; the
`PhantomData` marker holds no data (the argument-list indices `XG`, `XF` are
recovered from the types of `g` and `f` at each call site). -/
structure Composition (G : Type u) (F : Type v) where
  g : G
  f : F

/-- Embedding of `Compose::compose` (src/src/lib.rs:159-166): store `g` and
`f` verbatim in a `Composition`, invoking neither. -/
def compose {G : Type u} {F : Type v} (g : G) (f : F) : Composition G F :=
  { g := g, f := f }

/-- Embedding of the `FnOnce` impl's `call_once` (src/src/lib.rs:241-245)
for consuming callables, which this shallow embedding represents as plain
functions on argument lists (applying the function is the one permitted,
consuming invocation).  `g`'s argument list is `H :: T` (head `H`, tail
`T`), `f`'s is `X`; the composition's argument list is `T ++ X` and its
output type is `g`'s output type `C`.  The body mirrors the source:
`let (left, right) = args.split_tuple(); self.g.call_once(concat_tuples((self.f.call_once(right),), left))`. -/
def Composition.call_once {H C : Type u} {T X : List (Type u)}
    (c : Composition (HList (H :: T) → C) (HList X → H))
    (args : HList (T ++ X)) : C :=
  let lr := splitTuple T args
  c.g (concatTuples (HList.cons (c.f lr.2) HList.nil) lr.1)

/-- Embedding of the `FnMut` impl's `call_mut` (src/src/lib.rs:259-263).
A mutable-repeatable callable is a state transformer `σ → args → result × σ`
where `σ` is the closure's mutable captured state.  `&mut self` gives the
call exclusive access to the fields `g` and `f`, i.e. to both capture
states, so the composition's own state is the pair `σ × τ`; `f` runs
first (it is evaluated as the argument of the call to `g`), then `g`. -/
def Composition.call_mut {σ τ : Type u} {H C : Type u} {T X : List (Type u)}
    (c : Composition (σ → HList (H :: T) → C × σ) (τ → HList X → H × τ))
    (s : σ × τ) (args : HList (T ++ X)) : C × (σ × τ) :=
  let lr := splitTuple T args
  let rf := c.f s.2 lr.2
  let rg := c.g s.1 (concatTuples (HList.cons rf.1 HList.nil) lr.1)
  (rg.1, (rg.2, rf.2))

/-- Embedding of the `Fn` impl's `call` (src/src/lib.rs:277-281).  A
pure-repeatable callable reads its captured state through a shared
reference and cannot write it, so it is a function `σ → args → result`;
the call returns only the result and, by construction, leaves `σ`, `τ`
(and hence the `Composition`) unchanged. -/
def Composition.call {σ τ : Type u} {H C : Type u} {T X : List (Type u)}
    (c : Composition (σ → HList (H :: T) → C) (τ → HList X → H))
    (sg : σ) (sf : τ) (args : HList (T ++ X)) : C :=
  let lr := splitTuple T args
  c.g sg (concatTuples (HList.cons (c.f sf lr.2) HList.nil) lr.1)

/-- First element of a nonempty heterogeneous list (the Rust tuple's head). -/
def HList.headVal {α : Type u} {αs : List (Type u)} : HList (α :: αs) → α
  | HList.cons x _ => x

/-- All-but-first of a nonempty heterogeneous list (the Rust tuple's tail). -/
def HList.tailVal {α : Type u} {αs : List (Type u)} : HList (α :: αs) → HList αs
  | HList.cons _ xs => xs

/-- The squaring closure of the crate's doc example, `|x: f32| x*x`
(src/src/lib.rs:33).  `f32` is modelled by `ℚ`: every value the doc example
produces (integers `0, 1, 2`) is exactly representable in `f32`, so `f32`
arithmetic agrees with exact rational arithmetic on this example. -/
def sqQ : HList [ℚ] → ℚ := fun a => a.headVal * a.headVal

/-- The cast closure `|x: u8| x as f32` of the doc example
(src/src/lib.rs:34); `u8` is modelled by `Fin 256` and the cast `u8 → f32`
is exact for every `u8` value. -/
def castQ : HList [Fin 256] → ℚ := fun a => (a.headVal.val : ℚ)

/-- The two-argument closure `|x: f32, y: f32| x + y` of the doc example
(src/src/lib.rs:47). -/
def plusQ : HList [ℚ, ℚ] → ℚ := fun a => a.headVal + a.tailVal.headVal

/-- `let gf = g.compose(f)` of the doc example (src/src/lib.rs:36):
squaring composed with the `u8` cast, of signature `u8 → f32`. -/
def gfQ : Composition (HList [ℚ] → ℚ) (HList [Fin 256] → ℚ) :=
  compose sqQ castQ

/-- `let gf = g.compose(f)` of the doc example's second stage
(src/src/lib.rs:50): the two-argument sum composed with `gfQ`, of
signature `(f32, u8) → f32`. -/
def gf2Q : Composition (HList [ℚ, ℚ] → ℚ) (HList [Fin 256] → ℚ) :=
  compose plusQ (Composition.call_once gfQ)

/-- `let gff = gf.compose(f)` of the doc example's third stage
(src/src/lib.rs:63): the nested composition `(plus ∘ gf) ∘ gf`, of
signature `(u8, u8) → f32`. -/
def gffQ : Composition (HList [ℚ, Fin 256] → ℚ) (HList [Fin 256] → ℚ) :=
  compose (Composition.call_once gf2Q) (Composition.call_once gfQ)

/-- The three Rust calling disciplines a callable can offer, §3 of the
spec: `FnOnce` (consuming), `FnMut` (mutable-repeatable), `Fn`
(pure-repeatable). -/
inductive Discipline
  | consuming
  | mutRepeatable
  | pureRepeatable
deriving DecidableEq, Fintype

/-- Rank of a discipline in Rust's supertrait chain `Fn: FnMut: FnOnce`. -/
def Discipline.rank : Discipline → Nat
  | .consuming => 0
  | .mutRepeatable => 1
  | .pureRepeatable => 2

/-- A callable whose strongest implemented call trait is `cap` supports
discipline `d` iff `d`'s rank does not exceed `cap`'s: Rust's supertrait
chain `Fn: FnMut: FnOnce` makes every `Fn` also `FnMut` and `FnOnce`, and
every `FnMut` also `FnOnce`. -/
def supports (cap d : Discipline) : Bool := decide (d.rank ≤ cap.rank)

/-- Which disciplines `Composition<G, F, XG, XF>` offers, read off the
three impl blocks (src/src/lib.rs:228-282): the `FnOnce` impl requires
`G: FnOnce, F: FnOnce`, the `FnMut` impl requires `G: FnMut, F: FnMut`,
the `Fn` impl requires `G: Fn, F: Fn`, and these are the only call-trait
impls for `Composition` in the crate.  So the composition of callables
with strongest traits `cg` (for `g`) and `cf` (for `f`) supports `d`
exactly when both constituents do. -/
def compositionSupports (cg cf d : Discipline) : Bool :=
  supports cg d && supports cf d

/-- The weaker of two disciplines in the capability order. -/
def minCap (a b : Discipline) : Discipline :=
  if a.rank ≤ b.rank then a else b

/-- An outer callable `g` that propagates a fallible first argument: its
head argument of type `Except E A` stands for `f`'s possibly-failed
result, and `g` fails exactly when that argument is an error, with the
same error.  (`g0` is the remainder of `g`, consuming the successful
head value and `g`'s leftover arguments.) -/
def bindHead {E A R : Type u} {T : List (Type u)}
    (g0 : A → HList T → Except E R) : HList (Except E A :: T) → Except E R :=
  fun args => args.headVal.bind fun v => g0 v args.tailVal

/-- The `FnMut` view of a pure-repeatable callable: Rust's supertrait rule
makes every `Fn` closure also `FnMut`, with `call_mut` delegating to
`call`, so its state transformer reads the captured state and returns it
unchanged. -/
def mutOfPure {σ R : Type u} {Xs : List (Type u)}
    (h : σ → HList Xs → R) : σ → HList Xs → R × σ :=
  fun s args => (h s args, s)

/-- `n` successive invocations of a composition through its `FnMut` entry
point on the same argument list, each threading the state left by the
previous call; returns the list of results and the final state. -/
def iterateCallMut {σ τ H C : Type u} {T X : List (Type u)}
    (c : Composition (σ → HList (H :: T) → C × σ) (τ → HList X → H × τ)) :
    Nat → σ × τ → HList (T ++ X) → List C × (σ × τ)
  | 0, s, _ => ([], s)
  | n + 1, s, args =>
    (
      (Composition.call_mut c s args).1 ::
        (iterateCallMut c n (Composition.call_mut c s args).2 args).1,
      (iterateCallMut c n (Composition.call_mut c s args).2 args).2)

/-- World-passing reading of the `FnOnce` impl's `call_once`
(src/src/lib.rs:241-245): `g` and `f` may have external side effects,
modelled by threading an explicit world `ω`.  The source expression
`self.g.call_once(concat_tuples((self.f.call_once(right),), left))`
evaluates its argument first, so the world passes through `f` first and
then through `g`. -/
def Composition.call_once_w {ω H C : Type u} {T X : List (Type u)}
    (c : Composition (ω → HList (H :: T) → C × ω) (ω → HList X → H × ω))
    (w : ω) (args : HList (T ++ X)) : C × ω :=
  let lr := splitTuple T args
  let rf := c.f w lr.2
  c.g rf.2 (concatTuples (HList.cons rf.1 HList.nil) lr.1)

/-- World-passing reading of the `FnMut` impl's `call_mut`
(src/src/lib.rs:259-263): each callable owns mutable captures (`σ`, `τ`)
and may also affect the external world `ω`; `f` runs first, then `g`,
exactly as in the source expression. -/
def Composition.call_mut_w {σ τ ω H C : Type u} {T X : List (Type u)}
    (c : Composition (σ → ω → HList (H :: T) → C × σ × ω)
      (τ → ω → HList X → H × τ × ω))
    (s : σ × τ) (w : ω) (args : HList (T ++ X)) : C × (σ × τ) × ω :=
  let lr := splitTuple T args
  let rf := c.f s.2 w lr.2
  let rg := c.g s.1 rf.2.2 (concatTuples (HList.cons rf.1 HList.nil) lr.1)
  (rg.1, (rg.2.1, rf.2.1), rg.2.2)

/-- World-passing reading of the `Fn` impl's `call` (src/src/lib.rs:277-281):
captures are read through shared references and cannot be written, but the
callables may still affect the external world `ω` (e.g. output); `f` runs
first, then `g`. -/
def Composition.call_w {σ τ ω H C : Type u} {T X : List (Type u)}
    (c : Composition (σ → ω → HList (H :: T) → C × ω) (τ → ω → HList X → H × ω))
    (sg : σ) (sf : τ) (w : ω) (args : HList (T ++ X)) : C × ω :=
  let lr := splitTuple T args
  let rf := c.f sf w lr.2
  c.g sg rf.2 (concatTuples (HList.cons rf.1 HList.nil) lr.1)

/-- A consuming callable instrumented to record its invocation: it appends
the tag `t` to the world's event log and computes with `h`. -/
def traced {α R : Type u} {Xs : List (Type u)}
    (t : α) (h : HList Xs → R) : List α → HList Xs → R × List α :=
  fun w args => (h args, w ++ [t])

/-- A mutable-repeatable callable instrumented to record its invocation in
the world's event log while stepping its own captured state with `h`. -/
def tracedMut {α σ R : Type u} {Xs : List (Type u)}
    (t : α) (h : σ → HList Xs → R × σ) :
    σ → List α → HList Xs → R × σ × List α :=
  fun s w args => ((h s args).1, (h s args).2, w ++ [t])

/-- A pure-repeatable callable instrumented to record its invocation in
the world's event log; its captured state is only read. -/
def tracedCall {α σ R : Type u} {Xs : List (Type u)}
    (t : α) (h : σ → HList Xs → R) : σ → List α → HList Xs → R × List α :=
  fun s w args => (h s args, w ++ [t])

/-- Field-wise duplication of a `Composition`, as generated by
`#[derive(Clone, Copy)]` (src/src/lib.rs:220): cloning a `Composition`
clones exactly the pair of stored callables (the `PhantomData` marker is a
unit); `cloneG`/`cloneF` are the constituents' own `Clone`
implementations, and `Copy` duplication is the identity on values. -/
def Composition.clone {G : Type u} {F : Type v}
    (cloneG : G → G) (cloneF : F → F) (c : Composition G F) : Composition G F :=
  { g := cloneG c.g, f := cloneF c.f }

/-- Round trip of the tuple algebra: splitting a concatenation of `l` and
`r` at the statically fixed point `length as` recovers exactly `(l, r)`. -/
theorem splitTuple_concatTuples {as bs : List (Type u)}
    (l : HList as) (r : HList bs) : splitTuple as (concatTuples l r) = (l, r) := by
  induction l with
  | nil => rfl
  | cons x xs ih => simp only [concatTuples, splitTuple, ih]

/-- C1: invoking a `Composition` built from `g : (H, T...) → C` and
`f : X → H` on an argument list `A = T... ++ X` splits `A` at the
statically fixed index `length T...` into `left = T...` and `right = X`,
invokes `f` on `right` obtaining `r`, then invokes `g` on `(r,) ++ left`
and returns `g`'s result.  The type of `Composition.call_once` exhibits the
claimed signature: its argument list type is `T ++ X` (tail of `g`'s
argument list, then all of `f`'s) and its output type is `C`, `g`'s output
type. -/
theorem comp_call_once_splits_and_reassembles {H C : Type u} {T X : List (Type u)}
    (g : HList (H :: T) → C) (f : HList X → H)
    (l : HList T) (r : HList X) :
    splitTuple T (concatTuples l r) = (l, r) ∧
    Composition.call_once (compose g f) (concatTuples l r) = g (HList.cons (f r) l) := by
  refine ⟨splitTuple_concatTuples l r, ?_⟩
  simp only [Composition.call_once, compose, splitTuple_concatTuples, concatTuples]

/-- C2: for `g` of two arguments `(B, D) → C` and `f : (A,) → B`, invoking
`compose g f` on the argument list `(y, x)` returns `g (f x, y)`: the
leftover parameter `y` of `g` precedes `f`'s forwarded parameter `x` in the
composed signature, and the result applies `g` with `f`'s result first. -/
theorem comp_argument_shift {A B C D : Type}
    (g : HList [B, D] → C) (f : HList [A] → B) (x : A) (y : D) :
    Composition.call_once (T := [D]) (X := [A]) (compose g f)
        (HList.cons y (HList.cons x HList.nil)) =
      g (HList.cons (f (HList.cons x HList.nil)) (HList.cons y HList.nil)) := rfl

/-- C3: for single-argument `g : (B,) → C` and `f : (A,) → B`, invoking
`compose g f` on `(x,)` returns `g (f x)`. -/
theorem comp_single_argument {A B C : Type}
    (g : HList [B] → C) (f : HList [A] → B) (x : A) :
    Composition.call_once (T := []) (X := [A]) (compose g f)
        (HList.cons x HList.nil) =
      g (HList.cons (f (HList.cons x HList.nil)) HList.nil) := rfl

/-- C4: compositions nest associatively.  First conjunct: the general
chaining law — composing `compose g f` (for `g : (H, D, T...) → C`, so the
inner composition's argument list is `D :: T... ++ X`) with a further
`f' : Y → D` behaves, call-for-call, like the manual nesting: on the
argument list `(l ++ r) ++ s` it returns `g (f r, f' s, l...)`.  Remaining
conjuncts: the doc-test instance (src/src/lib.rs:63-68) with `f32`
modelled by `ℚ` and `u8` by `Fin 256` — the chained composition `gffQ`
invoked on `(x, y) = (1, 1)` equals `g (f x, f y)` for the two-argument
sum `g` and `f = gfQ`, i.e. `1*1 + 1*1 = 2`. -/
theorem comp_chaining_associativity
    {H D C : Type u} {T X Y : List (Type u)}
    (g : HList (H :: D :: T) → C) (f : HList X → H) (f' : HList Y → D)
    (l : HList T) (r : HList X) (s : HList Y) :
    Composition.call_once (compose (Composition.call_once (compose g f)) f')
        (concatTuples (concatTuples l r) s) =
      g (HList.cons (f r) (HList.cons (f' s) l)) ∧
    Composition.call_once (T := [Fin 256]) (X := [Fin 256]) gffQ
        (HList.cons 1 (HList.cons 1 HList.nil)) =
      plusQ (HList.cons (Composition.call_once gfQ (HList.cons 1 HList.nil))
        (HList.cons (Composition.call_once gfQ (HList.cons 1 HList.nil)) HList.nil)) ∧
    Composition.call_once (T := [Fin 256]) (X := [Fin 256]) gffQ
        (HList.cons 1 (HList.cons 1 HList.nil)) = (2 : ℚ) := by
  refine ⟨?_, ?_, ?_⟩
  · simp only [Composition.call_once, compose, concatTuples, splitTuple,
      splitTuple_concatTuples]
  · rfl
  · show (1 : Fin 256).val * (1 : Fin 256).val + (1 : Fin 256).val * (1 : Fin 256).val = (2 : ℚ)
    norm_num

/-- C5: the `Composition` offers a calling discipline iff both `g` and `f`
offer it, i.e. its strongest discipline is the weaker (capability-minimum)
of the two constituents; in particular a pure-repeatable `g` composed with
a consuming-only `f` yields a composition that supports only the consuming
discipline — repeated invocation (`FnMut`/`Fn`) is rejected. -/
theorem comp_discipline_is_min :
    (∀ cg cf d, compositionSupports cg cf d = supports (minCap cg cf) d) ∧
    compositionSupports Discipline.pureRepeatable Discipline.consuming
      Discipline.consuming = true ∧
    compositionSupports Discipline.pureRepeatable Discipline.consuming
      Discipline.mutRepeatable = false ∧
    compositionSupports Discipline.pureRepeatable Discipline.consuming
      Discipline.pureRepeatable = false := by
  refine ⟨?_, rfl, rfl, rfl⟩
  decide

/-- C6: invoking a well-typed `Composition` never fails and adds no failure
mode of its own: `Composition.call_once` is a total function returning `C`
(the Lean type exhibits totality), and when `f` and `g` are fallible
(`Except`-valued, with `g = bindHead g0` failing exactly when its first
argument — `f`'s result — is an error), the composed call equals
`(f r).bind (fun v => g0 v l)`: `f`'s result, error or not, reaches `g`
unmodified and uninspected, so the composition fails exactly as its
constituents do; with an always-failing `f`, the composed call returns
exactly `f`'s error, unwrapped and unmodified. -/
theorem comp_no_new_failure_mode {E A R : Type u} {T X : List (Type u)}
    (g0 : A → HList T → Except E R) (f : HList X → Except E A)
    (l : HList T) (r : HList X) (e : E) :
    Composition.call_once (compose (bindHead g0) f) (concatTuples l r) =
      (f r).bind (fun v => g0 v l) ∧
    Composition.call_once (compose (bindHead g0) (fun _ => Except.error e))
        (concatTuples l r) = Except.error e := by
  constructor
  · simp only [Composition.call_once, compose, splitTuple_concatTuples,
      concatTuples, bindHead, HList.headVal, HList.tailVal]
  · simp only [Composition.call_once, compose, splitTuple_concatTuples,
      concatTuples, bindHead, HList.headVal, HList.tailVal, Except.bind]

/-- C7: invoking a pure-repeatable composition accesses `g` and `f` only
through shared references and changes no observable state: viewing the
pure-repeatable constituents through the `FnMut` entry point (the
supertrait view, `mutOfPure`), `n` successive invocations on the same
argument list leave the composition's state `(sg, sf)` — and hence the
stored `g` and `f` — exactly as it was, and every one of the `n` calls
returns the same result, namely the one the shared-access `call` computes. -/
theorem comp_pure_repeatable_frame {σ τ H C : Type u} {T X : List (Type u)}
    (g : σ → HList (H :: T) → C) (f : τ → HList X → H)
    (sg : σ) (sf : τ) (args : HList (T ++ X)) (n : Nat) :
    iterateCallMut (compose (mutOfPure g) (mutOfPure f)) n (sg, sf) args =
      (List.replicate n (Composition.call (compose g f) sg sf args), (sg, sf)) := by
  induction n with
  | zero => rfl
  | succ k ih =>
    show ((Composition.call_mut (compose (mutOfPure g) (mutOfPure f)) (sg, sf) args).1 ::
        (iterateCallMut (compose (mutOfPure g) (mutOfPure f)) k
          (Composition.call_mut (compose (mutOfPure g) (mutOfPure f)) (sg, sf) args).2 args).1,
      (iterateCallMut (compose (mutOfPure g) (mutOfPure f)) k
        (Composition.call_mut (compose (mutOfPure g) (mutOfPure f)) (sg, sf) args).2 args).2) = _
    have hs : (Composition.call_mut (compose (mutOfPure g) (mutOfPure f)) (sg, sf) args).2
        = (sg, sf) := rfl
    rw [hs, ih]
    rfl

/-- C8: in every invocation of a composition, `f` is invoked before `g`:
with `g` and `f` instrumented to append their tags to the world's event
log, all three discipline variants (`call_once_w`, `call_mut_w`, `call_w`)
finish with the log extended by exactly one `f`-event followed by exactly
one `g`-event — each constituent is invoked exactly once, `f` first, so
`f`'s side effects precede `g`'s. -/
theorem comp_f_runs_before_g {α σ τ H C : Type u} {T X : List (Type u)}
    (tg tf : α) (g0 : HList (H :: T) → C) (f0 : HList X → H)
    (gm : σ → HList (H :: T) → C × σ) (fm : τ → HList X → H × τ)
    (gp : σ → HList (H :: T) → C) (fp : τ → HList X → H)
    (sg : σ) (sf : τ) (w : List α) (l : HList T) (r : HList X) :
    Composition.call_once_w (compose (traced tg g0) (traced tf f0)) w
        (concatTuples l r) =
      (g0 (HList.cons (f0 r) l), w ++ [tf, tg]) ∧
    Composition.call_mut_w (compose (tracedMut tg gm) (tracedMut tf fm)) (sg, sf) w
        (concatTuples l r) =
      ((gm sg (HList.cons (fm sf r).1 l)).1,
        ((gm sg (HList.cons (fm sf r).1 l)).2, (fm sf r).2), w ++ [tf, tg]) ∧
    Composition.call_w (compose (tracedCall tg gp) (tracedCall tf fp)) sg sf w
        (concatTuples l r) =
      (gp sg (HList.cons (fp sf r) l), w ++ [tf, tg]) := by
  refine ⟨?_, ?_, ?_⟩ <;>
    simp only [Composition.call_once_w, Composition.call_mut_w, Composition.call_w,
      compose, splitTuple_concatTuples, concatTuples, traced, tracedMut, tracedCall,
      List.append_assoc, List.singleton_append, List.cons_append, List.nil_append]

/-- C9: the three discipline-specific entry points implement one and the
same split/forward/call algorithm: for constituents supporting all three
disciplines (pure-repeatable `g`, `f`, whose `FnMut` and `FnOnce` views
are the supertrait ones), calling the composition through the consuming
(`call_once`), mutable-repeatable (`call_mut`) and pure-repeatable
(`call`) entry points on the same argument list yields the same result
(and `call_mut` leaves the state unchanged). -/
theorem comp_three_disciplines_agree {σ τ H C : Type u} {T X : List (Type u)}
    (g : σ → HList (H :: T) → C) (f : τ → HList X → H)
    (sg : σ) (sf : τ) (args : HList (T ++ X)) :
    Composition.call_once (compose (g sg) (f sf)) args =
      Composition.call (compose g f) sg sf args ∧
    Composition.call_mut (compose (mutOfPure g) (mutOfPure f)) (sg, sf) args =
      (Composition.call (compose g f) sg sf args, (sg, sf)) :=
  ⟨rfl, rfl⟩

/-- C10: `compose` stores `g` and `f` verbatim, invoking neither; the
derived `Clone`/`Copy` duplication of a composition duplicates exactly the
pair `(g, f)` field-wise (so a composition of cloneable constituents is
cloneable), `Copy` duplication (`clone` with identity cloners) is the
value itself, and a copy behaves identically to the original when
invoked. -/
theorem comp_clone_copy_verbatim {G₁ : Type u} {F₁ : Type v} {H C : Type u}
    {T X : List (Type u)}
    (g₁ : G₁) (f₁ : F₁) (cloneG : G₁ → G₁) (cloneF : F₁ → F₁)
    (c₁ : Composition G₁ F₁)
    (g : HList (H :: T) → C) (f : HList X → H) (args : HList (T ++ X)) :
    (compose g₁ f₁).g = g₁ ∧
    (compose g₁ f₁).f = f₁ ∧
    Composition.clone cloneG cloneF (compose g₁ f₁) =
      compose (cloneG g₁) (cloneF f₁) ∧
    Composition.clone id id c₁ = c₁ ∧
    Composition.call_once (Composition.clone id id (compose g f)) args =
      Composition.call_once (compose g f) args :=
  ⟨rfl, rfl, rfl, rfl, rfl⟩

end CurryCompose
